import Mathlib

/-!
Shallow embedding of `evolve_text.py` (ToolBox-EvolutionaryAlgorithms).

The Python module evolves a string toward a goal message with a genetic
algorithm.  The parts embedded here are the ones the verified claims are
about: the memoized edit-distance pair (`levenshtein_distance` and
`modified_levenshtein_distance`, which share the global dict `known`),
the `Message` individual (a character list plus a DEAP fitness slot),
the `mutate_text` operator and the two-point `crossover` operator.

Randomness is made explicit: every `random.randint` / `random.random`
outcome consumed by an operator is a parameter of the embedded function.
A Python exception (for example `random.randint(0, -1)` raising
`ValueError` on an empty range, or an out-of-range index) is modelled by
`Option`, with `none` for the raise.  The process-global memo dict
`known` is threaded as explicit state.
-/

namespace EvolveText

/-- Alphabet of the program: `string.ascii_uppercase + " "` (27 symbols,
the space last). -/
def VALID_CHARS : List Char := "ABCDEFGHIJKLMNOPQRSTUVWXYZ ".data

/-- Sum of the ordinal codes of a list of characters, as computed by the
`for char in str: val += ord(char)` loops of the source. -/
def sumOrds (l : List Char) : Nat := l.foldl (fun acc c => acc + c.toNat) 0

/-- Absolute difference of two characters' ordinal codes,
`abs(ord(a) - ord(b))`. -/
def natAbsDiff (a b : Char) : Nat := ((a.toNat : Int) - (b.toNat : Int)).natAbs

/-- The memo table `known`: a Python dict from key strings to distances,
modelled as an association list (the most recent binding wins). -/
abbrev Memo := List (List Char × Nat)

/-- Dict lookup `known[n]` (with `n in known` as the guard): the first
binding whose key equals `n`. -/
def memoFind : Memo → List Char → Option Nat
  | [], _ => none
  | (k, v) :: rest, key => if k = key then some v else memoFind rest key

/-- Initial state of the global memo table: `known = {',': 0}`. -/
def initKnown : Memo := [([','], 0)]

/-- Pure recursion underlying `levenshtein_distance` (what the memoized
function computes when the memo table is consistent): equal sequences
cost 0; if either sequence is empty the cost is `len(str1) + len(str2)`
(the other sequence's length); a matching first symbol recurses on the
tails; a mismatched first symbol adds 1 and recurses on the tails. -/
def levRec : List Char → List Char → Nat
  | [], str2 => if ([] : List Char) = str2 then 0 else str2.length
  | str1, [] => if str1 = ([] : List Char) then 0 else str1.length
  | a :: x, b :: y =>
    if a :: x = b :: y then 0
    else if a = b then levRec x y
    else 1 + levRec x y

/-- State-threaded embedding of `levenshtein_distance`: the global dict
`known` is an explicit argument and the updated dict is returned next to
the result.  The memo key `str1 + ',' + str2` is the character list
`str1 ++ [','] ++ str2`. -/
def levenshtein_distance : List Char → List Char → Memo → Nat × Memo
  | str1, str2, known =>
    match memoFind known (str1 ++ [','] ++ str2) with
    | some v => (v, known)
    | none =>
      if str1 = str2 then (0, (str1 ++ [','] ++ str2, 0) :: known)
      else
        match str1, str2 with
        | [], s2 => (s2.length, (([] : List Char) ++ [','] ++ s2, s2.length) :: known)
        | s1, [] => (s1.length, (s1 ++ [','] ++ ([] : List Char), s1.length) :: known)
        | a :: x, b :: y =>
          if a = b then
            let p := levenshtein_distance x y known
            (p.1, ((a :: x) ++ [','] ++ (b :: y), p.1) :: p.2)
          else
            let p := levenshtein_distance x y known
            (1 + p.1, ((a :: x) ++ [','] ++ (b :: y), 1 + p.1) :: p.2)

/-- State-threaded embedding of `modified_levenshtein_distance`.  It
shares the dict `known` with the plain function.  Its empty branch sums
the ordinal codes of both strings and returns early (no memo write), and
its two head branches delegate the suffix cost to the plain
`levenshtein_distance`: the function never calls itself. -/
def modified_levenshtein_distance (str1 str2 : List Char) (known : Memo) : Nat × Memo :=
  match memoFind known (str1 ++ [','] ++ str2) with
  | some v => (v, known)
  | none =>
    if str1 = str2 then (0, (str1 ++ [','] ++ str2, 0) :: known)
    else
      match str1, str2 with
      | [], s2 => (sumOrds [] + sumOrds s2, known)
      | s1, [] => (sumOrds s1 + sumOrds [], known)
      | a :: x, b :: y =>
        if a = b then
          let p := levenshtein_distance x y known
          (p.1, ((a :: x) ++ [','] ++ (b :: y), p.1) :: p.2)
        else
          let p := levenshtein_distance x y known
          (natAbsDiff a b + p.1,
            ((a :: x) ++ [','] ++ (b :: y), natAbsDiff a b + p.1) :: p.2)

/-- WeightedDistance as the specification words it: the same recursion as
the plain distance except that the mismatched-first-symbol branch adds
the absolute difference of the two symbols' ordinal codes instead of
flat cost 1.  Spec-side definition, kept only to compare against
`modified_levenshtein_distance`. -/
def weightedSpec : List Char → List Char → Nat
  | [], str2 => if ([] : List Char) = str2 then 0 else str2.length
  | str1, [] => if str1 = ([] : List Char) then 0 else str1.length
  | a :: x, b :: y =>
    if a :: x = b :: y then 0
    else if a = b then weightedSpec x y
    else natAbsDiff a b + weightedSpec x y

/-- Python list indexing `l[i]`: a negative index counts from the end;
an index out of range even after that raises `IndexError` (`none`). -/
def pyGet (l : List Char) (i : Int) : Option Char :=
  let j : Int := if i < 0 then i + l.length else i
  if 0 ≤ j ∧ j < l.length then l.get? j.toNat else none

/-- The random-character draw `VALID_CHARS[random.randint(0, len(VALID_CHARS)) - 1]`
as a function of the `randint` outcome `o` (which ranges over
`0 .. len(VALID_CHARS)` inclusive, 28 values). -/
def drawChar (o : Nat) : Option Char := pyGet VALID_CHARS ((o : Int) - 1)

/-- Outcomes of the random draws consumed by one `mutate_text` call:
for each mutation kind, whether `random.random() < prob` fired, the
position outcome of `random.randint(0, len - 1)`, and (for insertion and
substitution) the character outcome of `random.randint(0, len(VALID_CHARS))`. -/
structure MutDraws where
  fire_ins : Bool
  ins_loc : Nat
  ins_draw : Nat
  fire_del : Bool
  del_loc : Nat
  fire_sub : Bool
  sub_loc : Nat
  sub_draw : Nat
deriving DecidableEq

/-- Embedding of `mutate_text` on the character list.  Each step mirrors
the source: the position draw `random.randint(0, len - 1)` raises
`ValueError` (`none`) when the current length is 0; insertion inserts
the drawn character at the drawn position; deletion removes the
character at the drawn position; substitution deletes at the drawn
position and re-inserts the drawn character there.  The three steps
apply in order to the progressively mutated list. -/
def mutate_text (message : List Char) (r : MutDraws) : Option (List Char) :=
  let step1 : Option (List Char) :=
    if r.fire_ins then
      if message.length = 0 then none
      else
        match drawChar r.ins_draw with
        | none => none
        | some c => some (List.insertIdx r.ins_loc c message)
    else some message
  match step1 with
  | none => none
  | some m1 =>
    let step2 : Option (List Char) :=
      if r.fire_del then
        if m1.length = 0 then none
        else some (m1.eraseIdx r.del_loc)
      else some m1
    match step2 with
    | none => none
    | some m2 =>
      if r.fire_sub then
        if m2.length = 0 then none
        else
          match drawChar r.sub_draw with
          | none => none
          | some c => some (List.insertIdx r.sub_loc c (m2.eraseIdx r.sub_loc))
      else some m2

/-- The body of crossover's `for i in range(point1, point2)` loop: at
each index `i`, `del str1[i]; str1.insert(i, temp2[i - point1])` and the
mirror image on `str2`, where `temp1`/`temp2` are the slices captured
before the loop. -/
def crossLoop (temp1 temp2 : List Char) (point1 : Nat) :
    List Nat → List Char × List Char → List Char × List Char
  | [], pair => pair
  | i :: rest, (str1, str2) =>
    crossLoop temp1 temp2 point1 rest
      (List.insertIdx i (temp2.getD (i - point1) ' ') (str1.eraseIdx i),
       List.insertIdx i (temp1.getD (i - point1) ' ') (str2.eraseIdx i))

/-- Embedding of `crossover` on the two character lists, with the two
`random.randint(0, length - 1)` outcomes as parameters.  When the
shorter length is 0 the `randint` call raises `ValueError` (`none`).
Otherwise the two draws are sorted into `point1 ≤ point2`, the slices
`str1[point1:point2]` and `str2[point1:point2]` are captured, and the
loop swaps the segment element by element. -/
def crossover (str1 str2 : List Char) (point_a point_b : Nat) :
    Option (List Char × List Char) :=
  let length1 := str1.length
  let length2 := str2.length
  let length := if length1 < length2 then length1 else length2
  if length = 0 then none
  else
    let point1 := if point_a < point_b then point_a else point_b
    let point2 := if point_a < point_b then point_b else point_a
    let temp1 := (str1.drop point1).take (point2 - point1)
    let temp2 := (str2.drop point1).take (point2 - point1)
    some (crossLoop temp1 temp2 point1 (List.range' point1 (point2 - point1)) (str1, str2))

/-- A `Message` individual: the character list contents together with the
DEAP fitness slot (`none` when the fitness values are unset). -/
structure Message where
  seq : List Char
  fitness : Option Nat
deriving DecidableEq

/-- Embedding of `Message.__init__`: `if starting_string:` is Python
truthiness, so both `None` and the empty string take the random branch,
which draws `initial_length` characters by `random.choice(VALID_CHARS)`
(`choiceIdx i` is the chosen alphabet index of the i-th draw). -/
def messageInit (starting_string : Option (List Char)) (initial_length : Nat)
    (choiceIdx : Nat → Nat) : List Char :=
  if starting_string.getD [] ≠ [] then starting_string.getD []
  else (List.range initial_length).map (fun i => VALID_CHARS.getD (choiceIdx i) ' ')

/-- Embedding of `Message.get_text`: `"".join(self)`. -/
def get_text (l : List Char) : String := String.mk l

/-- The `mutate_text` operator applied to a full `Message`: the list
contents are mutated in place and the `fitness` attribute is never
touched by the operator. -/
def mutateMessage (m : Message) (r : MutDraws) : Option Message :=
  match mutate_text m.seq r with
  | none => none
  | some s => some { seq := s, fitness := m.fitness }

/-- The `crossover` operator applied to two full `Message`s: the list
contents are swapped segment-wise and neither `fitness` attribute is
touched by the operator. -/
def crossoverMessage (m1 m2 : Message) (point_a point_b : Nat) :
    Option (Message × Message) :=
  match crossover m1.seq m2.seq point_a point_b with
  | none => none
  | some p =>
    some ({ seq := p.1, fitness := m1.fitness }, { seq := p.2, fitness := m2.fitness })

/-- A sequence over the program's alphabet never contains the comma used
to build memo keys; this is what makes the key `str1 + ',' + str2`
decompose uniquely. -/
abbrev CommaFree (l : List Char) : Prop := ',' ∉ l

/-- Consistency of the memo table: every stored binding is the key of a
comma-free pair mapped to the value of the pure recursion on that pair. -/
def MemoValid (known : Memo) : Prop :=
  ∀ k v, (k, v) ∈ known →
    ∃ s1 s2, CommaFree s1 ∧ CommaFree s2 ∧ k = s1 ++ [','] ++ s2 ∧ v = levRec s1 s2

/-! Basic equations of the pure recursion. -/

theorem levRec_self : ∀ x : List Char, levRec x x = 0
  | [] => rfl
  | _ :: _ => by simp [levRec]

theorem levRec_nil_left (s : List Char) : levRec [] s = s.length := by
  cases s <;> simp [levRec]

theorem levRec_nil_right (s : List Char) : levRec s [] = s.length := by
  cases s <;> simp [levRec]

theorem levRec_cons_eq (a : Char) (x y : List Char) :
    levRec (a :: x) (a :: y) = levRec x y := by
  by_cases h : x = y
  · subst h
    simp [levRec, levRec_self]
  · simp [levRec, h]

theorem levRec_cons_ne (a b : Char) (x y : List Char) (h : a ≠ b) :
    levRec (a :: x) (b :: y) = 1 + levRec x y := by
  simp [levRec, h]

theorem levRec_comm (a : List Char) : ∀ b : List Char, levRec a b = levRec b a := by
  induction a with
  | nil =>
    intro b
    rw [levRec_nil_left, levRec_nil_right]
  | cons c x ih =>
    intro b
    cases b with
    | nil => rw [levRec_nil_left, levRec_nil_right]
    | cons d y =>
      by_cases hcd : c = d
      · subst hcd
        rw [levRec_cons_eq, levRec_cons_eq, ih]
      · rw [levRec_cons_ne _ _ _ _ hcd, levRec_cons_ne _ _ _ _ (Ne.symm hcd), ih]

/-! The memo table: lookup, unique key decomposition, validity. -/

theorem memoFind_mem : ∀ (m : Memo) (k : List Char) (v : Nat),
    memoFind m k = some v → (k, v) ∈ m
  | [], _, _, h => by simp [memoFind] at h
  | (k0, v0) :: rest, k, v, h => by
    simp only [memoFind] at h
    split at h
    · next heq =>
      injection h with hv
      subst heq
      subst hv
      exact List.mem_cons_self _ _
    · next hne =>
      exact List.mem_cons_of_mem _ (memoFind_mem rest k v h)

theorem commaFree_tail {a : Char} {l : List Char} (h : CommaFree (a :: l)) :
    CommaFree l :=
  fun hc => h (List.mem_cons_of_mem a hc)

theorem append_comma_inj (s1 : List Char) :
    ∀ (t1 s2 t2 : List Char), CommaFree s1 → CommaFree t1 →
      s1 ++ [','] ++ s2 = t1 ++ [','] ++ t2 → s1 = t1 ∧ s2 = t2 := by
  induction s1 with
  | nil =>
    intro t1 s2 t2 _ h2 h
    cases t1 with
    | nil =>
      refine ⟨rfl, ?_⟩
      simpa using h
    | cons b t1 =>
      exfalso
      simp only [List.nil_append, List.cons_append, List.cons.injEq] at h
      exact h2 (h.1 ▸ List.mem_cons_self b t1)
  | cons a s1 ih =>
    intro t1 s2 t2 h1 h2 h
    cases t1 with
    | nil =>
      exfalso
      simp only [List.nil_append, List.cons_append, List.cons.injEq] at h
      exact h1 (h.1 ▸ List.mem_cons_self a s1)
    | cons b t1 =>
      simp only [List.cons_append, List.cons.injEq] at h
      obtain ⟨hab, hrest⟩ := h
      obtain ⟨e1, e2⟩ := ih t1 s2 t2 (commaFree_tail h1) (commaFree_tail h2) hrest
      exact ⟨by rw [hab, e1], e2⟩

theorem memoFind_valid (m : Memo) (s1 s2 : List Char) (v : Nat)
    (hm : MemoValid m) (h1 : CommaFree s1) (_h2 : CommaFree s2)
    (h : memoFind m (s1 ++ [','] ++ s2) = some v) : v = levRec s1 s2 := by
  obtain ⟨t1, t2, ht1, ht2, hk, hv⟩ := hm _ _ (memoFind_mem _ _ _ h)
  obtain ⟨e1, e2⟩ := append_comma_inj s1 t1 s2 t2 h1 ht1 hk
  rw [hv, ← e1, ← e2]

theorem memoValid_initKnown : MemoValid initKnown := by
  intro k v hkv
  simp only [initKnown, List.mem_singleton, Prod.mk.injEq] at hkv
  obtain ⟨hk, hv⟩ := hkv
  refine ⟨[], [], ?_, ?_, by simp [hk], by simp [hv, levRec]⟩
  · intro hc
    simp at hc
  · intro hc
    simp at hc

theorem memoValid_cons (m : Memo) (s1 s2 : List Char)
    (hm : MemoValid m) (h1 : CommaFree s1) (h2 : CommaFree s2) :
    MemoValid ((s1 ++ [','] ++ s2, levRec s1 s2) :: m) := by
  intro k v hkv
  rcases List.mem_cons.mp hkv with h | h
  · obtain ⟨hk, hv⟩ := Prod.mk.injEq .. ▸ h
    exact ⟨s1, s2, h1, h2, by rw [hk], by rw [hv]⟩
  · exact hm _ _ h

/-- Unfolding equation of `levenshtein_distance` at an empty first
sequence (provable by reflexivity of the structural recursion). -/
theorem lev_unfold_nil (s2 : List Char) (m : Memo) :
    levenshtein_distance [] s2 m =
      match memoFind m ([] ++ [','] ++ s2) with
      | some v => (v, m)
      | none =>
        if ([] : List Char) = s2 then (0, ([] ++ [','] ++ s2, 0) :: m)
        else (s2.length, (([] : List Char) ++ [','] ++ s2, s2.length) :: m) := by
  rw [levenshtein_distance]

/-- Unfolding equation of `levenshtein_distance` at a nonempty first and
empty second sequence. -/
theorem lev_unfold_cons_nil (a : Char) (x : List Char) (m : Memo) :
    levenshtein_distance (a :: x) [] m =
      match memoFind m ((a :: x) ++ [','] ++ []) with
      | some v => (v, m)
      | none =>
        if a :: x = ([] : List Char) then (0, ((a :: x) ++ [','] ++ [], 0) :: m)
        else ((a :: x).length,
          ((a :: x) ++ [','] ++ ([] : List Char), (a :: x).length) :: m) := by
  rw [levenshtein_distance]
  exact fun h => List.noConfusion h

/-- Unfolding equation of `levenshtein_distance` at two nonempty
sequences. -/
theorem lev_unfold_cons_cons (a b : Char) (x y : List Char) (m : Memo) :
    levenshtein_distance (a :: x) (b :: y) m =
      match memoFind m ((a :: x) ++ [','] ++ (b :: y)) with
      | some v => (v, m)
      | none =>
        if a :: x = b :: y then (0, ((a :: x) ++ [','] ++ (b :: y), 0) :: m)
        else if a = b then
          ((levenshtein_distance x y m).1,
            ((a :: x) ++ [','] ++ (b :: y), (levenshtein_distance x y m).1)
              :: (levenshtein_distance x y m).2)
        else
          (1 + (levenshtein_distance x y m).1,
            ((a :: x) ++ [','] ++ (b :: y), 1 + (levenshtein_distance x y m).1)
              :: (levenshtein_distance x y m).2) := by
  rw [levenshtein_distance]

/-- Correctness of the memoized distance: starting from any consistent
memo table, `levenshtein_distance` on comma-free sequences returns the
value of the pure recursion and leaves the memo table consistent. -/
theorem levenshtein_distance_correct :
    ∀ (s1 s2 : List Char) (m : Memo), CommaFree s1 → CommaFree s2 → MemoValid m →
      (levenshtein_distance s1 s2 m).1 = levRec s1 s2 ∧
      MemoValid (levenshtein_distance s1 s2 m).2 := by
  intro s1
  induction s1 with
  | nil =>
    intro s2 m h1 h2 hm
    rw [lev_unfold_nil]
    cases hfind : memoFind m ([] ++ [','] ++ s2) with
    | some v =>
      simp only []
      exact ⟨memoFind_valid m [] s2 v hm h1 h2 hfind, hm⟩
    | none =>
      simp only []
      by_cases hs : ([] : List Char) = s2
      · subst hs
        simp only [if_pos rfl]
        refine ⟨by simp [levRec], ?_⟩
        have := memoValid_cons m [] [] hm h1 h2
        simpa [levRec] using this
      · simp only [if_neg hs]
        refine ⟨(levRec_nil_left s2).symm, ?_⟩
        have := memoValid_cons m [] s2 hm h1 h2
        simpa [levRec_nil_left] using this
  | cons a x ih =>
    intro s2 m h1 h2 hm
    cases s2 with
    | nil =>
      rw [lev_unfold_cons_nil]
      cases hfind : memoFind m ((a :: x) ++ [','] ++ []) with
      | some v =>
        simp only []
        exact ⟨memoFind_valid m (a :: x) [] v hm h1 h2 hfind, hm⟩
      | none =>
        simp only []
        have hne : a :: x ≠ ([] : List Char) := List.cons_ne_nil a x
        simp only [if_neg hne]
        refine ⟨(levRec_nil_right (a :: x)).symm, ?_⟩
        have := memoValid_cons m (a :: x) [] hm h1 h2
        simpa [levRec_nil_right] using this
    | cons b y =>
      rw [lev_unfold_cons_cons]
      cases hfind : memoFind m ((a :: x) ++ [','] ++ (b :: y)) with
      | some v =>
        simp only []
        exact ⟨memoFind_valid m (a :: x) (b :: y) v hm h1 h2 hfind, hm⟩
      | none =>
        simp only []
        have hx : CommaFree x := commaFree_tail h1
        have hy : CommaFree y := commaFree_tail h2
        by_cases hs : a :: x = b :: y
        · simp only [if_pos hs]
          have h0 : levRec (a :: x) (b :: y) = 0 := by
            rw [← hs]
            exact levRec_self _
          refine ⟨h0.symm, ?_⟩
          have := memoValid_cons m (a :: x) (b :: y) hm h1 h2
          simpa [h0] using this
        · simp only [if_neg hs]
          obtain ⟨hval, hvalid⟩ := ih y m hx hy hm
          by_cases hab : a = b
          · subst hab
            simp only [if_pos rfl]
            refine ⟨by rw [hval]; exact (levRec_cons_eq a x y).symm, ?_⟩
            have := memoValid_cons (levenshtein_distance x y m).2 (a :: x) (a :: y)
              hvalid h1 h2
            simpa [levRec_cons_eq, hval] using this
          · simp only [if_neg hab]
            refine ⟨by rw [hval]; exact (levRec_cons_ne a b x y hab).symm, ?_⟩
            have := memoValid_cons (levenshtein_distance x y m).2 (a :: x) (b :: y)
              hvalid h1 h2
            simpa [levRec_cons_ne a b x y hab, hval] using this

/-! Crossover: the `del`/`insert` pair at one index is `List.set`, and the
loop rewrites exactly the indices it visits. -/

theorem insertIdx_eraseIdx_set : ∀ (l : List Char) (i : Nat) (c : Char), i < l.length →
    List.insertIdx i c (l.eraseIdx i) = l.set i c
  | [], i, _, h => absurd h (by simp)
  | _ :: _, 0, _, _ => rfl
  | x :: xs, i + 1, c, h => by
    simp only [List.eraseIdx_cons_succ, List.insertIdx_succ_cons, List.set_cons_succ]
    rw [insertIdx_eraseIdx_set xs i c (Nat.lt_of_succ_lt_succ h)]

theorem crossLoop_spec (temp1 temp2 : List Char) (p1 : Nat) :
    ∀ (js : List Nat) (s1 s2 : List Char),
      (∀ j, j ∈ js → j < s1.length ∧ j < s2.length) →
      ((crossLoop temp1 temp2 p1 js (s1, s2)).1.length = s1.length ∧
       (crossLoop temp1 temp2 p1 js (s1, s2)).2.length = s2.length) ∧
      ∀ m : Nat,
        ((crossLoop temp1 temp2 p1 js (s1, s2)).1[m]? =
          if m ∈ js then some (temp2.getD (m - p1) ' ') else s1[m]?) ∧
        ((crossLoop temp1 temp2 p1 js (s1, s2)).2[m]? =
          if m ∈ js then some (temp1.getD (m - p1) ' ') else s2[m]?) := by
  intro js
  induction js with
  | nil =>
    intro s1 s2 _
    refine ⟨⟨rfl, rfl⟩, ?_⟩
    intro m
    simp [crossLoop]
  | cons i rest ih =>
    intro s1 s2 hb
    have hi1 : i < s1.length := (hb i (List.mem_cons_self i rest)).1
    have hi2 : i < s2.length := (hb i (List.mem_cons_self i rest)).2
    have hstep : crossLoop temp1 temp2 p1 (i :: rest) (s1, s2) =
        crossLoop temp1 temp2 p1 rest
          (s1.set i (temp2.getD (i - p1) ' '), s2.set i (temp1.getD (i - p1) ' ')) := by
      simp only [crossLoop]
      rw [insertIdx_eraseIdx_set s1 i _ hi1, insertIdx_eraseIdx_set s2 i _ hi2]
    have hb' : ∀ j, j ∈ rest →
        j < (s1.set i (temp2.getD (i - p1) ' ')).length ∧
        j < (s2.set i (temp1.getD (i - p1) ' ')).length := by
      intro j hj
      have := hb j (List.mem_cons_of_mem i hj)
      simpa using this
    obtain ⟨⟨hl1, hl2⟩, hget⟩ := ih (s1.set i (temp2.getD (i - p1) ' '))
      (s2.set i (temp1.getD (i - p1) ' ')) hb'
    rw [hstep]
    refine ⟨⟨by simpa using hl1, by simpa using hl2⟩, ?_⟩
    intro m
    obtain ⟨hg1, hg2⟩ := hget m
    rw [hg1, hg2]
    by_cases hmr : m ∈ rest
    · simp [hmr]
    · by_cases hmi : m = i
      · subst hmi
        simp [hmr, List.getElem?_set_self hi1, List.getElem?_set_self hi2]
      · have hmem : m ∉ i :: rest := by
          intro hc
          rcases List.mem_cons.mp hc with hc | hc
          · exact hmi hc
          · exact hmr hc
        simp [hmr, hmem, List.getElem?_set_ne (fun hc => hmi hc.symm)]

theorem crossover_unfold (s1 s2 : List Char) (pa pb : Nat)
    (h : ¬(if s1.length < s2.length then s1.length else s2.length) = 0) :
    crossover s1 s2 pa pb =
      some (crossLoop
        ((s1.drop (if pa < pb then pa else pb)).take
          ((if pa < pb then pb else pa) - (if pa < pb then pa else pb)))
        ((s2.drop (if pa < pb then pa else pb)).take
          ((if pa < pb then pb else pa) - (if pa < pb then pa else pb)))
        (if pa < pb then pa else pb)
        (List.range' (if pa < pb then pa else pb)
          ((if pa < pb then pb else pa) - (if pa < pb then pa else pb)))
        (s1, s2)) := by
  simp only [crossover]
  rw [if_neg h]

/-! Behaviour of the modified (weighted) variant on the initial memo
table. -/

theorem memoFind_initKnown (k : List Char) (h : k ≠ [',']) :
    memoFind initKnown k = none := by
  simp only [initKnown, memoFind]
  rw [if_neg fun hh => h hh.symm]

theorem modLev_nil_left (s : List Char) :
    (modified_levenshtein_distance [] s initKnown).1 = sumOrds s := by
  cases s with
  | nil => decide
  | cons c t =>
    have hk : ([] : List Char) ++ [','] ++ (c :: t) ≠ [','] := by
      intro h
      have := congrArg List.length h
      simp at this
    unfold modified_levenshtein_distance
    rw [memoFind_initKnown _ hk]
    simp [sumOrds]

theorem modLev_nil_right (s : List Char) :
    (modified_levenshtein_distance s [] initKnown).1 = sumOrds s := by
  cases s with
  | nil => decide
  | cons c t =>
    have hk : (c :: t) ++ [','] ++ ([] : List Char) ≠ [','] := by
      intro h
      have := congrArg List.length h
      simp at this
    unfold modified_levenshtein_distance
    rw [memoFind_initKnown _ hk]
    simp [sumOrds]

theorem modLev_cons_cons (a b : Char) (x y : List Char)
    (hx : CommaFree (a :: x)) (hy : CommaFree (b :: y)) (hne : a :: x ≠ b :: y) :
    (modified_levenshtein_distance (a :: x) (b :: y) initKnown).1 =
      if a = b then levRec x y else natAbsDiff a b + levRec x y := by
  have hk : (a :: x) ++ [','] ++ (b :: y) ≠ [','] := by
    intro h
    have := congrArg List.length h
    simp at this
  obtain ⟨hval, _⟩ := levenshtein_distance_correct x y initKnown
    (commaFree_tail hx) (commaFree_tail hy) memoValid_initKnown
  unfold modified_levenshtein_distance
  rw [memoFind_initKnown _ hk]
  simp only [if_neg hne]
  by_cases hab : a = b
  · simp [hab, hval]
  · simp [hab, hval]

/-! Claim theorems. -/

/-- C1: the distance function satisfies the spec's recursive definition —
equal sequences have distance 0; an empty side gives the other side's
length; a matching first symbol recurses on the suffixes; a mismatched
first symbol adds 1 and recurses — and the memoized
`levenshtein_distance`, started from the program's initial memo table,
computes exactly this recursion on comma-free sequences.  In particular
`distance(x, x) = 0` and `distance("", s) = len(s)`. -/
theorem claim1_distance_recursion :
    (∀ x : List Char, levRec x x = 0) ∧
    (∀ s : List Char, levRec [] s = s.length) ∧
    (∀ s : List Char, levRec s [] = s.length) ∧
    (∀ (a : Char) (x y : List Char), levRec (a :: x) (a :: y) = levRec x y) ∧
    (∀ (a b : Char) (x y : List Char), a ≠ b →
      levRec (a :: x) (b :: y) = 1 + levRec x y) ∧
    (∀ a b : List Char, CommaFree a → CommaFree b →
      (levenshtein_distance a b initKnown).1 = levRec a b) :=
  ⟨levRec_self, levRec_nil_left, levRec_nil_right, levRec_cons_eq, levRec_cons_ne,
   fun a b ha hb =>
     (levenshtein_distance_correct a b initKnown ha hb memoValid_initKnown).1⟩

/-- Witness for C1: the mismatch equation at 'A' ≠ 'B' and the memoized
distance of "C" and "CAT" (which equals 2, matching the source doctest). -/
theorem claim1_distance_recursion_witness :
    levRec ['A', 'X'] ['B', 'X'] = 1 + levRec ['X'] ['X'] ∧
    (levenshtein_distance ['C'] ['C', 'A', 'T'] initKnown).1 =
      levRec ['C'] ['C', 'A', 'T'] :=
  ⟨claim1_distance_recursion.2.2.2.2.1 'A' 'B' ['X'] ['X'] (by decide),
   claim1_distance_recursion.2.2.2.2.2 ['C'] ['C', 'A', 'T'] (by decide) (by decide)⟩

/-- C2 is refuted as stated: `crossover` has no `length < 2` guard.  When
the shorter individual is empty, `random.randint(0, length - 1)` is
`randint(0, -1)`, which raises `ValueError` (modelled `none`) instead of
returning both individuals unchanged.  When the shorter length is 1 the
call happens to be a no-op, but only because both draws are forced to 0
by the degenerate range, not because of a guard. -/
theorem claim2_crossover_len0_raises :
    crossover [] ['A', 'B'] 0 0 = none ∧
    crossover ['A'] ['B', 'C'] 0 0 = some (['A'], ['B', 'C']) := by
  decide

/-- C3 is refuted as stated: `mutate_text` has no zero-length guard.  On
an empty Message with the insertion draw firing, `randint(0, -1)` raises
`ValueError` (`none`); likewise when deletion empties the sequence and
substitution then fires in the same call. -/
theorem claim3_mutate_len0_raises :
    mutate_text [] ⟨true, 0, 5, false, 0, false, 0, 0⟩ = none ∧
    mutate_text ['A'] ⟨false, 0, 0, true, 0, true, 0, 5⟩ = none := by
  decide

/-- C4 counterexample: constructing a Message from the empty string takes
the random branch (Python truthiness of `if starting_string:`), so the
round trip returns a random nonempty string, not `""` — here with length
draw 4 and all choice draws 0 it returns "AAAA". -/
theorem claim4_counterexample :
    get_text (messageInit (some []) 4 (fun _ => 0)) = "AAAA" ∧
    ("AAAA" : String) ≠ "" := by
  decide

/-- C4 amended: for every nonempty valid string the constructor copies
the sequence verbatim and the round trip is the identity; for the empty
string the constructor instead builds a random message whose length is
the `randint(min_length, max_length)` draw (which is at least 4 by
default), so the round trip fails there. -/
theorem claim4_roundtrip_nonempty :
    (∀ (s : List Char) (n : Nat) (f : Nat → Nat), s ≠ [] →
      messageInit (some s) n f = s ∧
      get_text (messageInit (some s) n f) = String.mk s) ∧
    (∀ (n : Nat) (f : Nat → Nat), (messageInit (some []) n f).length = n) := by
  constructor
  · intro s n f hs
    have hcopy : messageInit (some s) n f = s := by
      simp [messageInit, hs]
    exact ⟨hcopy, by rw [hcopy]; rfl⟩
  · intro n f
    simp [messageInit]

/-- Witness for C4 (amended) at the nonempty string "CAT". -/
theorem claim4_roundtrip_nonempty_witness :
    messageInit (some ['C', 'A', 'T']) 7 (fun _ => 0) = ['C', 'A', 'T'] ∧
    get_text (messageInit (some ['C', 'A', 'T']) 7 (fun _ => 0)) =
      String.mk ['C', 'A', 'T'] :=
  claim4_roundtrip_nonempty.1 ['C', 'A', 'T'] 7 (fun _ => 0) (by decide)

/-- C5 is refuted as stated: the two distance functions share the memo
dict, and the weighted variant stores values the plain recursion does not
produce.  On a fresh table `levenshtein_distance("A", "C")` is 1, but
after one call to `modified_levenshtein_distance("A", "C")` (which caches
2 under the key "A,C") the same call returns 2: the plain distance is
not a pure function of its arguments. -/
theorem claim5_memo_poisoning :
    (levenshtein_distance ['A'] ['C'] initKnown).1 = 1 ∧
    (levenshtein_distance ['A'] ['C']
      (modified_levenshtein_distance ['A'] ['C'] initKnown).2).1 = 2 := by
  decide

/-- C6 counterexample: the weighted variant's empty branch is not
identical to the plain variant's.  On `("", "A")` the plain recursion
(and the spec-worded weighted recursion) give 1, but
`modified_levenshtein_distance` returns 65 — the sum of the ordinal
codes of both strings. -/
theorem claim6_counterexample :
    (modified_levenshtein_distance [] ['A'] initKnown).1 = 65 ∧
    weightedSpec [] ['A'] = 1 ∧
    levRec [] ['A'] = 1 := by
  decide

/-- C6 amended: on the initial memo table the weighted variant computes —
equal sequences: 0; either sequence empty: the sum of the ordinal codes
of all symbols of both sequences (not the other side's length); both
nonempty with matching heads: the PLAIN distance of the suffixes; both
nonempty with mismatched heads: the absolute ordinal difference of the
heads plus the PLAIN distance of the suffixes.  It is not self-recursive:
only the top-level comparison is weighted. -/
theorem claim6_weighted_branches :
    (∀ s : List Char, (modified_levenshtein_distance [] s initKnown).1 = sumOrds s) ∧
    (∀ s : List Char, (modified_levenshtein_distance s [] initKnown).1 = sumOrds s) ∧
    (∀ (a b : Char) (x y : List Char), CommaFree (a :: x) → CommaFree (b :: y) →
      a :: x ≠ b :: y →
      (modified_levenshtein_distance (a :: x) (b :: y) initKnown).1 =
        if a = b then levRec x y else natAbsDiff a b + levRec x y) :=
  ⟨modLev_nil_left, modLev_nil_right, modLev_cons_cons⟩

/-- Witness for C6 (amended): on `("AD", "AB")` the weighted variant
returns the plain suffix distance (1), not a weighted suffix cost. -/
theorem claim6_weighted_branches_witness :
    (modified_levenshtein_distance ['A', 'D'] ['A', 'B'] initKnown).1 =
      if 'A' = 'A' then levRec ['D'] ['B']
      else natAbsDiff 'A' 'A' + levRec ['D'] ['B'] :=
  claim6_weighted_branches.2.2 'A' 'A' ['D'] ['B'] (by decide) (by decide) (by decide)

/-- C7 is refuted as stated: `VALID_CHARS[random.randint(0, len(VALID_CHARS)) - 1]`
draws an outcome in `0 .. 27` (28 values) and outcome 0 yields Python
index -1, which wraps to the last character (the space).  So the space is
produced by 2 of the 28 equally likely outcomes while each letter is
produced by exactly 1: the draw is not uniform and not every outcome
yields an index in `[0, 26]`. -/
theorem claim7_draw_nonuniform :
    drawChar 0 = some ' ' ∧ drawChar 27 = some ' ' ∧ drawChar 1 = some 'A' ∧
    ((List.range 28).filter (fun o => drawChar o == some ' ')).length = 2 ∧
    ((List.range 28).filter (fun o => drawChar o == some 'A')).length = 1 := by
  decide

/-- C8 counterexample: a substitution that changes the sequence from "A"
to "C" returns with the cached fitness still `some 5` — the operator does
not set it back to unset. -/
theorem claim8_counterexample :
    mutateMessage ⟨['A'], some 5⟩ ⟨false, 0, 0, false, 0, true, 0, 3⟩ =
      some ⟨['C'], some 5⟩ ∧
    (['C'] : List Char) ≠ ['A'] ∧
    (some 5 : Option Nat) ≠ none := by
  decide

/-- C8 amended: the mutation and crossover operators never touch the
cached fitness — whatever they do to the symbol sequence, each returned
individual carries exactly the fitness it came in with.  (Invalidation
is performed by the caller, DEAP's `varAnd` loop, not by the operators.) -/
theorem claim8_operators_keep_fitness :
    (∀ (m : Message) (r : MutDraws) (res : Message),
      mutateMessage m r = some res → res.fitness = m.fitness) ∧
    (∀ (m1 m2 : Message) (pa pb : Nat) (r1 r2 : Message),
      crossoverMessage m1 m2 pa pb = some (r1, r2) →
        r1.fitness = m1.fitness ∧ r2.fitness = m2.fitness) := by
  constructor
  · intro m r res h
    unfold mutateMessage at h
    cases hmt : mutate_text m.seq r with
    | none =>
      rw [hmt] at h
      exact absurd h (by simp)
    | some s =>
      rw [hmt] at h
      injection h with h
      rw [← h]
  · intro m1 m2 pa pb r1 r2 h
    unfold crossoverMessage at h
    cases hc : crossover m1.seq m2.seq pa pb with
    | none =>
      rw [hc] at h
      exact absurd h (by simp)
    | some p =>
      rw [hc] at h
      injection h with h
      have h1 : r1 = ⟨p.1, m1.fitness⟩ := (congrArg Prod.fst h).symm
      have h2 : r2 = ⟨p.2, m2.fitness⟩ := (congrArg Prod.snd h).symm
      rw [h1, h2]
      exact ⟨rfl, rfl⟩

/-- Witness for C8 (amended) on a concrete mutation and a concrete
crossover. -/
theorem claim8_operators_keep_fitness_witness :
    Message.fitness ⟨['C'], some 5⟩ = Message.fitness ⟨['A'], some 5⟩ ∧
    (Message.fitness ⟨['W', 'B', 'C'], some 7⟩ =
        Message.fitness ⟨['A', 'B', 'C'], some 7⟩ ∧
      Message.fitness ⟨['A', 'X', 'Y'], some 9⟩ =
        Message.fitness ⟨['W', 'X', 'Y'], some 9⟩) :=
  ⟨claim8_operators_keep_fitness.1 ⟨['A'], some 5⟩ ⟨false, 0, 0, false, 0, true, 0, 3⟩
      ⟨['C'], some 5⟩ (by decide),
   claim8_operators_keep_fitness.2 ⟨['A', 'B', 'C'], some 7⟩ ⟨['W', 'X', 'Y'], some 9⟩
      0 1 ⟨['W', 'B', 'C'], some 7⟩ ⟨['A', 'X', 'Y'], some 9⟩ (by decide)⟩

/-- C9: when both individuals have length at least 2 and the two draws
lie in `[0, length - 1]`, crossover exchanges exactly the half-open index
window `[min pa pb, max pa pb)` between the two sequences, preserves both
lengths, leaves every position outside the window unchanged (including
the longer individual's tail beyond the shorter length), and equal draws
leave both individuals unchanged. -/
theorem claim9_crossover_frame :
    ∀ (s1 s2 r1 r2 : List Char) (pa pb : Nat),
      2 ≤ s1.length → 2 ≤ s2.length →
      pa < s1.length → pa < s2.length → pb < s1.length → pb < s2.length →
      crossover s1 s2 pa pb = some (r1, r2) →
      r1.length = s1.length ∧ r2.length = s2.length ∧
      (∀ m, min pa pb ≤ m → m < max pa pb → r1[m]? = s2[m]? ∧ r2[m]? = s1[m]?) ∧
      (∀ m, m < min pa pb ∨ max pa pb ≤ m → r1[m]? = s1[m]? ∧ r2[m]? = s2[m]?) ∧
      (pa = pb → r1 = s1 ∧ r2 = s2) := by
  intro s1 s2 r1 r2 pa pb hl1 hl2 hpa1 hpa2 hpb1 hpb2 hcross
  have hlen0 : ¬(if s1.length < s2.length then s1.length else s2.length) = 0 := by
    split <;> omega
  rw [crossover_unfold s1 s2 pa pb hlen0] at hcross
  injection hcross with hcross
  have e1 : (if pa < pb then pa else pb) = min pa pb := by
    split <;> omega
  have e2 : (if pa < pb then pb else pa) = max pa pb := by
    split <;> omega
  rw [e1, e2] at hcross
  have hbounds : ∀ j, j ∈ List.range' (min pa pb) (max pa pb - min pa pb) →
      j < s1.length ∧ j < s2.length := by
    intro j hj
    obtain ⟨i, hi, hji⟩ := List.mem_range'.mp hj
    constructor <;> omega
  obtain ⟨⟨hlen1, hlen2⟩, hget⟩ :=
    crossLoop_spec ((s1.drop (min pa pb)).take (max pa pb - min pa pb))
      ((s2.drop (min pa pb)).take (max pa pb - min pa pb)) (min pa pb)
      (List.range' (min pa pb) (max pa pb - min pa pb)) s1 s2 hbounds
  have hr1 : r1 = (crossLoop ((s1.drop (min pa pb)).take (max pa pb - min pa pb))
      ((s2.drop (min pa pb)).take (max pa pb - min pa pb)) (min pa pb)
      (List.range' (min pa pb) (max pa pb - min pa pb)) (s1, s2)).1 :=
    (congrArg Prod.fst hcross).symm
  have hr2 : r2 = (crossLoop ((s1.drop (min pa pb)).take (max pa pb - min pa pb))
      ((s2.drop (min pa pb)).take (max pa pb - min pa pb)) (min pa pb)
      (List.range' (min pa pb) (max pa pb - min pa pb)) (s1, s2)).2 :=
    (congrArg Prod.snd hcross).symm
  have hwin : ∀ (t : List Char) (m : Nat), min pa pb ≤ m → m < max pa pb →
      m < t.length →
      some (((t.drop (min pa pb)).take (max pa pb - min pa pb)).getD (m - min pa pb) ' ')
        = t[m]? := by
    intro t m hm1 hm2 hmt
    rw [List.getD_eq_getElem?_getD, List.getElem?_take_of_lt (by omega),
        List.getElem?_drop]
    have hidx : min pa pb + (m - min pa pb) = m := by omega
    rw [hidx, List.getElem?_eq_getElem hmt]
    rfl
  refine ⟨by rw [hr1]; exact hlen1, by rw [hr2]; exact hlen2, ?_, ?_, ?_⟩
  · intro m hm1 hm2
    have hmem : m ∈ List.range' (min pa pb) (max pa pb - min pa pb) :=
      List.mem_range'.mpr ⟨m - min pa pb, by omega, by omega⟩
    obtain ⟨hg1, hg2⟩ := hget m
    rw [hr1, hr2, hg1, hg2, if_pos hmem, if_pos hmem]
    exact ⟨hwin s2 m hm1 hm2 (by omega), hwin s1 m hm1 hm2 (by omega)⟩
  · intro m hm
    have hmem : m ∉ List.range' (min pa pb) (max pa pb - min pa pb) := by
      intro hc
      obtain ⟨i, hi, hji⟩ := List.mem_range'.mp hc
      omega
    obtain ⟨hg1, hg2⟩ := hget m
    rw [hr1, hr2, hg1, hg2, if_neg hmem, if_neg hmem]
    exact ⟨rfl, rfl⟩
  · intro hab
    have hz : max pa pb - min pa pb = 0 := by omega
    rw [hz] at hr1 hr2
    simp only [List.range'_zero, crossLoop] at hr1 hr2
    exact ⟨hr1, hr2⟩

/-- Witness for C9: crossing "ABCDE" with "VWXYZ" at draws (1, 3) swaps
the window `[1, 3)`; position 1 of each child comes from the other
parent. -/
theorem claim9_crossover_frame_witness :
    (['A', 'W', 'X', 'D', 'E'] : List Char)[1]? =
      (['V', 'W', 'X', 'Y', 'Z'] : List Char)[1]? ∧
    (['V', 'B', 'C', 'Y', 'Z'] : List Char)[1]? =
      (['A', 'B', 'C', 'D', 'E'] : List Char)[1]? :=
  (claim9_crossover_frame ['A', 'B', 'C', 'D', 'E'] ['V', 'W', 'X', 'Y', 'Z']
    ['A', 'W', 'X', 'D', 'E'] ['V', 'B', 'C', 'Y', 'Z'] 1 3
    (by decide) (by decide) (by decide) (by decide) (by decide) (by decide)
    (by decide)).2.2.1 1 (by decide) (by decide)

/-- C10: the distance is symmetric — both as the pure recursion and as
the memoized function run from the program's initial memo table. -/
theorem claim10_distance_symmetric :
    (∀ a b : List Char, levRec a b = levRec b a) ∧
    (∀ a b : List Char, CommaFree a → CommaFree b →
      (levenshtein_distance a b initKnown).1 =
        (levenshtein_distance b a initKnown).1) := by
  constructor
  · exact levRec_comm
  · intro a b ha hb
    rw [(levenshtein_distance_correct a b initKnown ha hb memoValid_initKnown).1,
        (levenshtein_distance_correct b a initKnown hb ha memoValid_initKnown).1,
        levRec_comm]

/-- Witness for C10 on "CAT" and "DOG". -/
theorem claim10_distance_symmetric_witness :
    (levenshtein_distance ['C', 'A', 'T'] ['D', 'O', 'G'] initKnown).1 =
      (levenshtein_distance ['D', 'O', 'G'] ['C', 'A', 'T'] initKnown).1 :=
  claim10_distance_symmetric.2 ['C', 'A', 'T'] ['D', 'O', 'G'] (by decide) (by decide)

end EvolveText
